import Mathlib

/-!
# Verification of the zhixi title-translation and public-calendar subsystem

Shallow embedding of the core algorithms of the repository:

* `src/translate.rs`: the rule-based Chinese-title transliterator
  (`chinese_num_to_int`, `chinese_suffix_to_letter`,
  `translate_title_algorithmic`) and the cache-backed batch translation
  gateway (`translate_batch`).
* `src/routes.rs`: the public-calendar builder (`filter_public_link`,
  `ALL_KINDS`, `build_calendar`).

Rust machine integers are modelled as `Nat`/`Int`; the one place where an
unsigned cast can wrap (`as u32` on the week index) is modelled explicitly
with `% 2^32`.  Strings are modelled as Lean `String` (a list of unicode
scalar values, matching Rust's `char` iteration).  Database and network
effects of `translate_batch` are modelled by explicit state passing: the
cache is an association list keyed by source text, and the remote API is an
oracle parameter; the list of issued remote attempts is returned as a trace.
-/

namespace Zhixi

/-! ## Chinese numeral parser (`src/translate.rs`, `chinese_num_to_int`) -/

/-- The digit table of `chinese_num_to_int` (translate.rs lines 15-29). -/
def digit (c : Char) : Option Nat :=
  if c = '零' then some 0
  else if c = '一' then some 1
  else if c = '二' then some 2
  else if c = '三' then some 3
  else if c = '四' then some 4
  else if c = '五' then some 5
  else if c = '六' then some 6
  else if c = '七' then some 7
  else if c = '八' then some 8
  else if c = '九' then some 9
  else none

/-- Units stage and final guard of `chinese_num_to_int`
(translate.rs lines 69-80): add `digit chars[i]` if in bounds, then return
`some result` iff `result > 0 || s == "零"`. -/
def unitsAndGuard (s : String) (chars : List Char) (result i : Nat) : Option Nat :=
  let result2 :=
    match chars.get? i with
    | some c =>
      match digit c with
      | some d => result + d
      | none => result
    | none => result
  if result2 > 0 ∨ s = "零" then some result2 else none

/-- Tens stage of `chinese_num_to_int` (translate.rs lines 51-67), entered
with the accumulator and index left by the hundreds check.  Mirrors the Rust
control flow exactly, including the early `return digit(chars[i])` taken when
no tens pattern applies and the accumulator is still zero. -/
def tensStage (s : String) (chars : List Char) (result i : Nat) : Option Nat :=
  match chars.get? i with
  | none => unitsAndGuard s chars result i
  | some ci =>
    if ci = '十' then unitsAndGuard s chars (result + 10) (i + 1)
    else
      match chars.get? (i + 1) with
      | some ci1 =>
        if ci1 = '十' then
          match digit ci with
          | some d => unitsAndGuard s chars (result + d * 10) (i + 2)
          | none => unitsAndGuard s chars result i
        else if result = 0 then digit ci
        else unitsAndGuard s chars result i
      | none =>
        if result = 0 then digit ci
        else unitsAndGuard s chars result i

/-- `chinese_num_to_int` (translate.rs lines 9-81).  Empty input is `none`;
a single character is `十 ↦ 10` or a digit; otherwise the hundreds check
(`chars[1] == '百'`) feeds the tens stage. -/
def chinese_num_to_int (s : String) : Option Nat :=
  match s.data with
  | [] => none
  | [c] => if c = '十' then some 10 else digit c
  | c0 :: c1 :: _ =>
    let ri : Nat × Nat :=
      if c1 = '百' then
        match digit c0 with
        | some d => (d * 100, 2)
        | none => (0, 0)
      else (0, 0)
    tensStage s s.data ri.1 ri.2

/-- `chinese_suffix_to_letter` (translate.rs lines 84-91). -/
def chinese_suffix_to_letter (c : Char) : Option Char :=
  if c = '甲' then some 'A'
  else if c = '乙' then some 'B'
  else if c = '丙' then some 'C'
  else none

/-! ## Title transliteration (`src/translate.rs`, `translate_title_algorithmic`) -/

/-- The `en_kind` table of `translate_title_algorithmic`
(translate.rs lines 96-106). -/
def en_kind (kind : String) : String :=
  if kind = "Lecture" then "Lecture"
  else if kind = "Discussion" then "Discussion"
  else if kind = "Lab" then "Lab"
  else if kind = "Homework" then "Homework"
  else if kind = "Quiz" then "Quiz"
  else if kind = "Midterm" then "Midterm"
  else if kind = "Final" then "Final"
  else if kind = "Project" then "Project"
  else "Other"

/-- Rust `str::strip_prefix`: remove a leading occurrence of `p`, if any.
Stated on the character lists so that the kernel can evaluate it. -/
def stripPre (s p : String) : Option String :=
  if p.data.isPrefixOf s.data then some (String.mk (s.data.drop p.data.length)) else none

/-- Rust `str::strip_suffix`: remove a trailing occurrence of `p`, if any. -/
def stripSuf (s p : String) : Option String :=
  if p.data.reverse.isPrefixOf s.data.reverse then
    some (String.mk (s.data.take (s.data.length - p.data.length)))
  else none

/-- The `第X次` sub-attempt of `translate_title_algorithmic`
(translate.rs lines 116-120), tried on the rest after `第` when the `讲`
attempt did not return. -/
def rule_ci (ek rest : String) : Option String :=
  match stripSuf rest "次" with
  | some num_str => (chinese_num_to_int num_str).map (fun n => ek ++ " " ++ toString n)
  | none => none

/-- The `第X讲` / `第X次` rule of `translate_title_algorithmic`
(translate.rs lines 108-121), returning `some` iff the rule produced an
early return. -/
def rule_di (ek title : String) : Option String :=
  match stripPre title "第" with
  | none => none
  | some rest =>
    match stripSuf rest "讲" with
    | some num_str =>
      match chinese_num_to_int num_str with
      | some n => some (ek ++ " " ++ toString n)
      | none => rule_ci ek rest
    | none => rule_ci ek rest

/-- The `期中考试X` / `期末考试X` rules of `translate_title_algorithmic`
(translate.rs lines 123-139), instantiated with the literal prefix and the
English exam name. -/
def rule_exam (cn en title : String) : Option String :=
  match stripPre title cn with
  | none => none
  | some rest =>
    if rest = "" then some en
    else (chinese_num_to_int rest).map (fun n => en ++ " " ++ toString n)

/-- The fixed kind-name prefix table `cn_kind_prefixes`
(translate.rs lines 142-149). -/
def cn_kind_pre : List (String × String) :=
  [("作业", "Homework"), ("测验", "Quiz"), ("实验", "Lab"),
   ("讨论", "Discussion"), ("讲座", "Lecture"), ("项目", "Project")]

/-- The kind-prefix loop of `translate_title_algorithmic`
(translate.rs lines 151-172).  A prefix whose remainder fails to parse falls
through to the next table entry, exactly as the Rust `for` loop does. -/
def rule_kind_loop : List (String × String) → String → Option String
  | [], _ => none
  | (cn, en) :: ps, title =>
    match stripPre title cn with
    | none => rule_kind_loop ps title
    | some rest =>
      if rest = "" then some en
      else
        match rest.data.getLast? with
        | none => rule_kind_loop ps title
        | some last_char =>
          match chinese_suffix_to_letter last_char with
          | some letter =>
            match chinese_num_to_int (String.mk rest.data.dropLast) with
            | some n => some (en ++ " " ++ toString n ++ String.mk [letter])
            | none => rule_kind_loop ps title
          | none =>
            match chinese_num_to_int rest with
            | some n => some (en ++ " " ++ toString n)
            | none => rule_kind_loop ps title

/-- The rule chain of `translate_title_algorithmic` in source priority order,
returning `some` iff some rule produced an early return. -/
def try_title_rules (kind title : String) : Option String :=
  match rule_di (en_kind kind) title with
  | some r => some r
  | none =>
    match rule_exam "期中考试" "Midterm" title with
    | some r => some r
    | none =>
      match rule_exam "期末考试" "Final" title with
      | some r => some r
      | none => rule_kind_loop cn_kind_pre title

/-- `translate_title_algorithmic` (translate.rs lines 95-176): the rule chain
with the full-passthrough fallback to the original title. -/
def translate_title_algorithmic (kind title : String) : String :=
  match try_title_rules kind title with
  | some r => r
  | none => title

/-! Sanity checks against the repository's own unit tests
(`translate.rs` lines 352-373). -/

example : chinese_num_to_int "一" = some 1 := by decide
example : chinese_num_to_int "十" = some 10 := by decide
example : chinese_num_to_int "十一" = some 11 := by decide
example : chinese_num_to_int "二十" = some 20 := by decide
example : chinese_num_to_int "二十一" = some 21 := by decide
example : chinese_num_to_int "三十四" = some 34 := by decide
example : chinese_num_to_int "零" = some 0 := by decide
example : translate_title_algorithmic "Lecture" "第二十一讲" = "Lecture 21" := by decide
example : translate_title_algorithmic "Homework" "作业二" = "Homework 2" := by decide
example : translate_title_algorithmic "Quiz" "测验十" = "Quiz 10" := by decide
example : translate_title_algorithmic "Midterm" "期中考试一" = "Midterm 1" := by decide
example : translate_title_algorithmic "Midterm" "期中考试" = "Midterm" := by decide
example : translate_title_algorithmic "Homework" "作业三甲" = "Homework 3A" := by decide
example : translate_title_algorithmic "Other" "Something else" = "Something else" := by decide

/-! ## The spec's numeral grammar (for comparison with `chinese_num_to_int`) -/

/-- A digit that the spec's tens grammar allows as multiplier or unit
(`N`, `M` in 1..9). -/
def nz_digit (c : Char) : Option Nat :=
  match digit c with
  | some 0 => none
  | some d => some d
  | none => none

/-- Modelled from the spec (§4.1 step 2), tens/units forms: bare ten `十`,
ten-with-unit `十N` (N in 1..9), tens-with-multiplier `N十` and `N十M`
(N, M in 1..9), or a single digit 0-9. -/
def spec_tens_units : List Char → Option Nat
  | ['十'] => some 10
  | ['十', c] => (nz_digit c).map (fun n => 10 + n)
  | [a, '十'] => (nz_digit a).map (fun n => n * 10)
  | [a, '十', b] =>
    match nz_digit a, nz_digit b with
    | some n, some m => some (n * 10 + m)
    | _, _ => none
  | [c] => digit c
  | _ => none

/-- Modelled from the spec (§4.1 step 2): the full supported numeral grammar,
`spec_tens_units` optionally preceded by a hundreds digit and the marker
`百`.  A token outside this grammar is "no match" (`none`); only the token
`零` has the value 0. -/
def spec_numeral_value (s : String) : Option Nat :=
  match s.data with
  | d :: '百' :: rest =>
    match digit d, rest with
    | some n, [] => some (n * 100)
    | some n, r => (spec_tens_units r).map (fun t => n * 100 + t)
    | none, _ => none
  | l => spec_tens_units l

example : spec_numeral_value "零" = some 0 := by decide
example : spec_numeral_value "二十一" = some 21 := by decide
example : spec_numeral_value "五百三十四" = some 534 := by decide

/-! ## Helper lemmas for non-emptiness of rule outputs -/

lemma append_eq_empty {a b : String} : a ++ b = "" ↔ a = "" ∧ b = "" := by
  constructor
  · intro h
    have hd := congrArg String.data h
    simp only [String.data_append] at hd
    rcases List.append_eq_nil.mp hd with ⟨h1, h2⟩
    exact ⟨String.ext h1, String.ext h2⟩
  · rintro ⟨rfl, rfl⟩
    rfl

lemma space_ne_empty : (" " : String) ≠ "" := by decide

lemma mid_space_ne_empty (a b : String) : a ++ " " ++ b ≠ "" := by
  intro h
  rcases append_eq_empty.mp h with ⟨h1, -⟩
  rcases append_eq_empty.mp h1 with ⟨-, h2⟩
  exact space_ne_empty h2

lemma mid_space_app_ne_empty (a b c : String) : a ++ " " ++ b ++ c ≠ "" := by
  intro h
  rcases append_eq_empty.mp h with ⟨h1, -⟩
  exact mid_space_ne_empty a b h1

lemma en_kind_ne_empty (kind : String) : en_kind kind ≠ "" := by
  unfold en_kind
  split_ifs <;> decide

lemma rule_ci_ne_empty {ek rest r : String} (h : rule_ci ek rest = some r) : r ≠ "" := by
  unfold rule_ci at h
  split at h
  · obtain ⟨n, -, rfl⟩ := Option.map_eq_some'.mp h
    exact mid_space_ne_empty _ _
  · exact absurd h (by simp)

lemma rule_di_ne_empty {ek title r : String} (h : rule_di ek title = some r) : r ≠ "" := by
  unfold rule_di at h
  split at h
  · exact absurd h (by simp)
  · split at h
    · split at h
      · cases h
        exact mid_space_ne_empty _ _
      · exact rule_ci_ne_empty h
    · exact rule_ci_ne_empty h

lemma rule_exam_ne_empty {cn en title r : String} (hen : en ≠ "")
    (h : rule_exam cn en title = some r) : r ≠ "" := by
  unfold rule_exam at h
  split at h
  · exact absurd h (by simp)
  · split at h
    · cases h
      exact hen
    · obtain ⟨n, -, rfl⟩ := Option.map_eq_some'.mp h
      exact mid_space_ne_empty _ _

lemma rule_kind_loop_ne_empty :
    ∀ (ps : List (String × String)) {title r : String},
      (∀ p ∈ ps, p.2 ≠ "") → rule_kind_loop ps title = some r → r ≠ "" := by
  intro ps
  induction ps with
  | nil =>
    intro title r _ h
    exact absurd h (by simp [rule_kind_loop])
  | cons p ps ih =>
    intro title r hne h
    obtain ⟨cn, en⟩ := p
    have hen : en ≠ "" := hne (cn, en) (List.mem_cons_self _ _)
    have hps : ∀ q ∈ ps, q.2 ≠ "" := fun q hq => hne q (List.mem_cons_of_mem _ hq)
    unfold rule_kind_loop at h
    split at h
    · exact ih hps h
    · split at h
      · cases h
        exact hen
      · split at h
        · exact ih hps h
        · split at h
          · split at h
            · cases h
              exact mid_space_app_ne_empty _ _ _
            · exact ih hps h
          · split at h
            · cases h
              exact mid_space_ne_empty _ _
            · exact ih hps h

lemma try_title_rules_ne_empty {kind title r : String}
    (h : try_title_rules kind title = some r) : r ≠ "" := by
  unfold try_title_rules at h
  split at h
  next heq =>
    cases h
    exact rule_di_ne_empty heq
  next =>
    split at h
    next heq =>
      cases h
      exact rule_exam_ne_empty (by decide) heq
    next =>
      split at h
      next heq =>
        cases h
        exact rule_exam_ne_empty (by decide) heq
      next =>
        exact rule_kind_loop_ne_empty cn_kind_pre (by decide) h

/-! ## Claims C1-C3 -/

/-- C1: the claim states that `chinese_num_to_int` returns `none` for every
token the supported grammar cannot decompose, returns 0 only for the token
`零`, and never silently yields a number for a token containing characters
outside the grammar.  The code violates all three parts: `零零` (outside the
grammar, and not equal to `零`) yields `some 0`, and `一a` (a digit followed
by a non-numeral character) yields `some 1`, because the early
`return digit(chars[i])` in the tens stage bypasses both the
remaining-characters check and the final `result > 0 || s == "零"` guard. -/
theorem chinese_num_nongrammar_leniency :
    chinese_num_to_int "零零" = some 0 ∧
    chinese_num_to_int "一a" = some 1 ∧
    spec_numeral_value "零零" = none ∧
    spec_numeral_value "一a" = none ∧
    ("零零" : String) ≠ "零" := by
  refine ⟨by decide, by decide, by decide, by decide, by decide⟩

/-- C2: the claim states that a title starting with a kind-name prefix whose
remainder is neither a grammar numeral nor a grammar numeral followed by a
section letter is returned unmodified.  The code violates this: for kind
`Homework` and title `作业一a` the remainder `一a` is outside the grammar
(`spec_numeral_value` rejects it) and does not end in a section letter, yet
the lenient `chinese_num_to_int` accepts it as 1 and the function returns
the partially-built string `Homework 1` instead of the original title. -/
theorem translate_title_kind_loop_leniency :
    translate_title_algorithmic "Homework" "作业一a" = "Homework 1" ∧
    spec_numeral_value "一a" = none ∧
    chinese_suffix_to_letter 'a' = none ∧
    ("Homework 1" : String) ≠ "作业一a" := by
  refine ⟨by decide, by decide, by decide, by decide⟩

/-- C3: `translate_title_algorithmic` is pure and total (it is a Lean
function), and satisfies the identity law: whenever no title-pattern rule
produces a result — including rules that matched a prefix but failed to
parse the trailing numeral, which make the rule chain return `none` — the
result is exactly the input title; moreover the result of a non-empty title
is never the empty string. -/
theorem translate_title_total_and_identity (kind title : String) :
    (try_title_rules kind title = none → translate_title_algorithmic kind title = title) ∧
    (title ≠ "" → translate_title_algorithmic kind title ≠ "") := by
  constructor
  · intro h
    unfold translate_title_algorithmic
    simp only [h]
  · intro ht
    unfold translate_title_algorithmic
    cases hr : try_title_rules kind title with
    | none => exact ht
    | some r => exact try_title_rules_ne_empty hr

/-- Witness for C3 at a concrete non-matching input. -/
theorem translate_title_total_and_identity_witness :
    translate_title_algorithmic "Other" "Something else" = "Something else" ∧
    translate_title_algorithmic "Other" "Something else" ≠ "" :=
  ⟨(translate_title_total_and_identity "Other" "Something else").1 (by decide),
   (translate_title_total_and_identity "Other" "Something else").2 (by decide)⟩

/-! ## Translation cache gateway (`src/translate.rs`, `translate_batch`)

The database table `translations`, restricted to the fixed language pair
(zh, en), is modelled as an association list from source text to translated
text with unique keys; the remote API is an oracle `remote k ms` giving the
outcome of retry attempt `k` on miss list `ms` (`none` = error).  The trace
of issued remote attempts is returned alongside the results. -/

abbrev Cache := List (String × String)

/-- A cache read (`SELECT translated_text FROM translations WHERE
source_text = ? ...`). -/
def cacheLookup (cache : Cache) (t : String) : Option String :=
  List.lookup t cache

/-- A cache write (`INSERT OR REPLACE INTO translations ...`): upsert keyed
by the source text. -/
def cacheUpsert (cache : Cache) (k v : String) : Cache :=
  if (List.lookup k cache).isSome then
    cache.map (fun p => if p.1 = k then (k, v) else p)
  else cache ++ [(k, v)]

/-- One step of the dedup loop (translate.rs line 216): keep `t` iff it is
non-empty and not seen before. -/
def dedupStep (acc : List String) (t : String) : List String :=
  if t ≠ "" ∧ t ∉ acc then acc ++ [t] else acc

/-- Deduplicate the non-empty input texts preserving first-occurrence order
(translate.rs lines 212-219). -/
def dedupNonEmpty (texts : List String) : List String :=
  texts.foldl dedupStep []

/-- The unique texts that are cache misses (translate.rs lines 221-239). -/
def misses_of (cache : Cache) (texts : List String) : List String :=
  (dedupNonEmpty texts).filter (fun t => (cacheLookup cache t).isNone)

/-- One step of the cache-lookup loop (translate.rs lines 225-239): record a
hit in the in-memory map, skip a miss. -/
def hitsStep (cache : Cache) (m : Cache) (t : String) : Cache :=
  match cacheLookup cache t with
  | some tr => m ++ [(t, tr)]
  | none => m

/-- The cache hits, as the association list built by the lookup loop
(translate.rs lines 225-239). -/
def hits_of (cache : Cache) (texts : List String) : Cache :=
  (dedupNonEmpty texts).foldl (hitsStep cache) []

/-- The retry loop around `call_openrouter_translate`
(translate.rs lines 242-254): up to 3 attempts, stopping at the first
success.  The second component is the trace of issued attempts, each entry
recording the list of texts sent. -/
def call_with_retries (remote : Nat → List String → Option (List String))
    (misses : List String) : Option (List String) × List (List String) :=
  match remote 0 misses with
  | some r => (some r, [misses])
  | none =>
    match remote 1 misses with
    | some r => (some r, [misses, misses])
    | none =>
      match remote 2 misses with
      | some r => (some r, [misses, misses, misses])
      | none => (none, [misses, misses, misses])

/-- Result of `translate_batch`: the translated texts, the translations
table after any writes, and the trace of remote attempts. -/
structure BatchOut where
  results : List String
  cache : Cache
  calls : List (List String)
deriving DecidableEq, Repr

/-- The final per-text mapping of `translate_batch`
(translate.rs lines 284-293). -/
def map_back (cache_map : Cache) (t : String) : String :=
  if t = "" then "" else (cacheLookup cache_map t).getD t

/-- The complete `cache_map` at the end of `translate_batch`, by the same
case split the code performs on the API outcome (translate.rs
lines 221-281). -/
def final_cache_map (remote : Nat → List String → Option (List String))
    (cache : Cache) (texts : List String) : Cache :=
  if misses_of cache texts = [] then hits_of cache texts
  else
    match call_with_retries remote (misses_of cache texts) with
    | (some translations, _) =>
      if translations.length = (misses_of cache texts).length then
        hits_of cache texts ++ (misses_of cache texts).zip translations
      else
        hits_of cache texts ++ (misses_of cache texts).map (fun t => (t, t))
    | (none, _) =>
      hits_of cache texts ++ (misses_of cache texts).map (fun t => (t, t))

/-- `translate_batch` (translate.rs lines 203-294). -/
def translate_batch (remote : Nat → List String → Option (List String))
    (cache : Cache) (texts : List String) : BatchOut :=
  if texts = [] then ⟨[], cache, []⟩
  else if misses_of cache texts = [] then
    ⟨texts.map (map_back (final_cache_map remote cache texts)), cache, []⟩
  else
    match call_with_retries remote (misses_of cache texts) with
    | (some translations, calls) =>
      if translations.length = (misses_of cache texts).length then
        ⟨texts.map (map_back (final_cache_map remote cache texts)),
         ((misses_of cache texts).zip translations).foldl (fun c p => cacheUpsert c p.1 p.2) cache,
         calls⟩
      else
        ⟨texts.map (map_back (final_cache_map remote cache texts)), cache, calls⟩
    | (none, calls) =>
      ⟨texts.map (map_back (final_cache_map remote cache texts)), cache, calls⟩

example :
    translate_batch (fun _ _ => some ["B"]) [("a", "A")] ["a", "a", "b"] =
      ⟨["A", "A", "B"], [("a", "A"), ("b", "B")], [["b"]]⟩ := by decide

example :
    translate_batch (fun _ _ => none) [] ["x"] =
      ⟨["x"], [], [["x"], ["x"], ["x"]]⟩ := by decide

/-! ## Lemmas about the batch gateway -/

section BatchLemmas

lemma dedupStep_mono {t : String} {acc : List String} (hd : String) (h : t ∈ acc) :
    t ∈ dedupStep acc hd := by
  unfold dedupStep
  split
  · exact List.mem_append_left _ h
  · exact h

lemma dedup_aux_mem {t : String} :
    ∀ (l acc : List String), t ∈ l.foldl dedupStep acc → t ∈ acc ∨ (t ∈ l ∧ t ≠ "") := by
  intro l
  induction l with
  | nil => intro acc h; exact Or.inl h
  | cons hd tl ih =>
    intro acc h
    rcases ih (dedupStep acc hd) h with hacc | ⟨htl, hne⟩
    · unfold dedupStep at hacc
      by_cases hc : hd ≠ "" ∧ hd ∉ acc
      · rw [if_pos hc] at hacc
        rcases List.mem_append.mp hacc with h1 | h2
        · exact Or.inl h1
        · have : t = hd := by simpa using h2
          subst this
          exact Or.inr ⟨List.mem_cons_self _ _, hc.1⟩
      · rw [if_neg hc] at hacc
        exact Or.inl hacc
    · exact Or.inr ⟨List.mem_cons_of_mem _ htl, hne⟩

lemma dedup_aux_mono {t : String} :
    ∀ (l acc : List String), t ∈ acc → t ∈ l.foldl dedupStep acc := by
  intro l
  induction l with
  | nil => intro acc h; exact h
  | cons hd tl ih =>
    intro acc h
    exact ih (dedupStep acc hd) (dedupStep_mono hd h)

lemma dedup_aux_complete {t : String} (hne : t ≠ "") :
    ∀ (l acc : List String), t ∈ l → t ∈ l.foldl dedupStep acc := by
  intro l
  induction l with
  | nil => intro acc h; cases h
  | cons hd tl ih =>
    intro acc h
    rcases List.mem_cons.mp h with rfl | htl
    · refine dedup_aux_mono tl (dedupStep acc t) ?_
      unfold dedupStep
      split
      next hc => exact List.mem_append_right _ (List.mem_singleton_self _)
      next hc =>
        rw [not_and_or] at hc
        rcases hc with hc | hc
        · exact absurd hne (by simpa using hc)
        · simpa using hc
    · exact ih _ htl

lemma dedup_aux_nodup :
    ∀ (l acc : List String), acc.Nodup → (l.foldl dedupStep acc).Nodup := by
  intro l
  induction l with
  | nil => intro acc h; exact h
  | cons hd tl ih =>
    intro acc h
    apply ih
    unfold dedupStep
    split
    next hc =>
      rw [List.nodup_append]
      exact ⟨h, List.nodup_singleton _, by
        intro a ha hb
        have : a = hd := by simpa using hb
        subst this
        exact hc.2 ha⟩
    next => exact h

lemma dedupNonEmpty_nodup (texts : List String) : (dedupNonEmpty texts).Nodup :=
  dedup_aux_nodup texts [] List.nodup_nil

lemma dedupNonEmpty_mem {t : String} {texts : List String} (h : t ∈ dedupNonEmpty texts) :
    t ∈ texts ∧ t ≠ "" := by
  rcases dedup_aux_mem texts [] h with h0 | h1
  · cases h0
  · exact h1

lemma dedupNonEmpty_mem_of {t : String} {texts : List String} (ht : t ∈ texts) (hne : t ≠ "") :
    t ∈ dedupNonEmpty texts :=
  dedup_aux_complete hne texts [] ht

lemma misses_of_nodup (cache : Cache) (texts : List String) : (misses_of cache texts).Nodup :=
  (dedupNonEmpty_nodup texts).filter _

lemma misses_of_mem {cache : Cache} {texts : List String} {t : String}
    (h : t ∈ misses_of cache texts) :
    t ≠ "" ∧ t ∈ texts ∧ cacheLookup cache t = none := by
  unfold misses_of at h
  have hmem := List.mem_of_mem_filter h
  have hfil := List.of_mem_filter h
  rcases dedupNonEmpty_mem hmem with ⟨hin, hne⟩
  exact ⟨hne, hin, by simpa [Option.isNone_iff_eq_none] using hfil⟩

lemma misses_of_mem_of {cache : Cache} {texts : List String} {t : String}
    (ht : t ∈ texts) (hne : t ≠ "") (hmiss : cacheLookup cache t = none) :
    t ∈ misses_of cache texts := by
  unfold misses_of
  apply List.mem_filter_of_mem (dedupNonEmpty_mem_of ht hne)
  simp [hmiss]

lemma hits_aux_keys (cache : Cache) :
    ∀ (l : List String) (acc : Cache),
      (∀ p ∈ acc, (cacheLookup cache p.1).isSome) →
      ∀ p ∈ l.foldl (hitsStep cache) acc, (cacheLookup cache p.1).isSome := by
  intro l
  induction l with
  | nil => intro acc h; exact h
  | cons hd tl ih =>
    intro acc h
    apply ih
    intro p hp
    unfold hitsStep at hp
    cases hlk : cacheLookup cache hd with
    | some tr =>
      rw [hlk] at hp
      rcases List.mem_append.mp hp with h1 | h2
      · exact h p h1
      · have : p = (hd, tr) := by simpa using h2
        subst this
        simp [hlk]
    | none =>
      rw [hlk] at hp
      exact h p hp

lemma hits_of_keys_hit (cache : Cache) (texts : List String) :
    ∀ p ∈ hits_of cache texts, (cacheLookup cache p.1).isSome := by
  unfold hits_of
  exact hits_aux_keys cache (dedupNonEmpty texts) [] (by intro p hp; cases hp)

lemma lookup_eq_none_of_keys {l : Cache} {t : String} (h : ∀ p ∈ l, p.1 ≠ t) :
    List.lookup t l = none := by
  induction l with
  | nil => rfl
  | cons p tl ih =>
    obtain ⟨k, v⟩ := p
    have hk : k ≠ t := h (k, v) (List.mem_cons_self _ _)
    have hb : (t == k) = false := by
      rw [beq_eq_false_iff_ne]
      exact fun he => hk he.symm
    simp only [List.lookup, hb]
    exact ih (fun q hq => h q (List.mem_cons_of_mem _ hq))

lemma lookup_append_of_keys {l1 l2 : Cache} {t : String} (h : ∀ p ∈ l1, p.1 ≠ t) :
    List.lookup t (l1 ++ l2) = List.lookup t l2 := by
  induction l1 with
  | nil => rfl
  | cons p tl ih =>
    obtain ⟨k, v⟩ := p
    have hk : k ≠ t := h (k, v) (List.mem_cons_self _ _)
    have hb : (t == k) = false := by
      rw [beq_eq_false_iff_ne]
      exact fun he => hk he.symm
    rw [List.cons_append]
    simp only [List.lookup, hb]
    exact ih (fun q hq => h q (List.mem_cons_of_mem _ hq))

lemma lookup_id_map {ms : List String} {t : String} (h : t ∈ ms) :
    List.lookup t (ms.map (fun u => (u, u))) = some t := by
  induction ms with
  | nil => cases h
  | cons hd tl ih =>
    rcases List.mem_cons.mp h with rfl | htl
    · simp [List.lookup]
    · by_cases he : t = hd
      · subst he
        simp [List.lookup]
      · have hb : (t == hd) = false := by simpa [beq_eq_false_iff_ne] using he
        simp only [List.map_cons, List.lookup, hb]
        exact ih htl

lemma call_with_retries_trace (remote : Nat → List String → Option (List String))
    (ms : List String) : ∀ c ∈ (call_with_retries remote ms).2, c = ms := by
  intro c hc
  unfold call_with_retries at hc
  cases h0 : remote 0 ms with
  | some r =>
    rw [h0] at hc
    simpa using hc
  | none =>
    rw [h0] at hc
    cases h1 : remote 1 ms with
    | some r =>
      rw [h1] at hc
      rcases (by simpa using hc : c = ms ∨ c = ms) with h | h <;> exact h
    | none =>
      rw [h1] at hc
      cases h2 : remote 2 ms with
      | some r =>
        rw [h2] at hc
        rcases (by simpa using hc : c = ms ∨ c = ms ∨ c = ms) with h | h | h <;> exact h
      | none =>
        rw [h2] at hc
        rcases (by simpa using hc : c = ms ∨ c = ms ∨ c = ms) with h | h | h <;> exact h

lemma translate_batch_results (remote : Nat → List String → Option (List String))
    (cache : Cache) (texts : List String) :
    (translate_batch remote cache texts).results =
      texts.map (map_back (final_cache_map remote cache texts)) := by
  unfold translate_batch
  split
  next h => subst h; rfl
  next =>
    split
    · rfl
    · split
      next translations calls heq => split <;> rfl
      next calls heq => rfl

lemma translate_batch_calls (remote : Nat → List String → Option (List String))
    (cache : Cache) (texts : List String) :
    ∀ c ∈ (translate_batch remote cache texts).calls, c = misses_of cache texts := by
  intro c hc
  unfold translate_batch at hc
  split at hc
  · simp at hc
  · split at hc
    · simp at hc
    · split at hc
      next translations calls heq =>
        split at hc
        all_goals
          refine call_with_retries_trace remote (misses_of cache texts) c ?_
          rw [heq]
          exact hc
      next calls heq =>
        refine call_with_retries_trace remote (misses_of cache texts) c ?_
        rw [heq]
        exact hc

lemma getD_mem_of_lt {α : Type} {l : List α} {i : Nat} (h : i < l.length) (d : α) :
    l.getD i d ∈ l := by
  rw [List.getD_eq_getElem?_getD, List.getElem?_eq_getElem h]
  exact List.getElem_mem h

lemma getD_map_eq {α β : Type} {l : List α} {f : α → β} {i : Nat}
    (h : i < l.length) (d : α) (d2 : β) :
    (l.map f).getD i d2 = f (l.getD i d) := by
  rw [List.getD_eq_getElem?_getD, List.getD_eq_getElem?_getD, List.getElem?_map,
    List.getElem?_eq_getElem h]
  rfl

lemma final_cache_map_miss {remote : Nat → List String → Option (List String)}
    {cache : Cache} {texts : List String} {t : String}
    (ht : t ∈ misses_of cache texts)
    (hfail : (call_with_retries remote (misses_of cache texts)).1 = none ∨
      ∀ r, (call_with_retries remote (misses_of cache texts)).1 = some r →
        r.length ≠ (misses_of cache texts).length) :
    cacheLookup (final_cache_map remote cache texts) t = some t := by
  have hne : misses_of cache texts ≠ [] := by
    intro h
    rw [h] at ht
    cases ht
  have hkeys : ∀ p ∈ hits_of cache texts, p.1 ≠ t := by
    intro p hp he
    have hsome := hits_of_keys_hit cache texts p hp
    rcases misses_of_mem ht with ⟨-, -, hnone⟩
    rw [he, hnone] at hsome
    cases hsome
  unfold final_cache_map
  rw [if_neg hne]
  cases hcall : call_with_retries remote (misses_of cache texts) with
  | mk fst snd =>
    cases fst with
    | some translations =>
      have hlen : translations.length ≠ (misses_of cache texts).length := by
        rcases hfail with h | h
        · rw [hcall] at h
          cases h
        · refine h translations ?_
          rw [hcall]
      dsimp only
      rw [if_neg hlen]
      unfold cacheLookup
      rw [lookup_append_of_keys hkeys]
      exact lookup_id_map ht
    | none =>
      dsimp only
      unfold cacheLookup
      rw [lookup_append_of_keys hkeys]
      exact lookup_id_map ht

lemma translate_batch_cache_fail {remote : Nat → List String → Option (List String)}
    {cache : Cache} {texts : List String}
    (hfail : (call_with_retries remote (misses_of cache texts)).1 = none ∨
      ∀ r, (call_with_retries remote (misses_of cache texts)).1 = some r →
        r.length ≠ (misses_of cache texts).length) :
    (translate_batch remote cache texts).cache = cache := by
  unfold translate_batch
  split
  · rfl
  · split
    · rfl
    · split
      next translations calls heq =>
        have hlen : translations.length ≠ (misses_of cache texts).length := by
          rcases hfail with h | h
          · rw [heq] at h; cases h
          · exact h translations (by rw [heq])
        simp only [hlen, if_false]
      next calls heq => rfl

end BatchLemmas

/-! ## Claims C4 and C5 -/

/-- C4: `translate_batch` returns one result per input text in order; empty
input texts map to the empty string; every remote attempt covers exactly the
deduplicated list of non-empty cache-missing texts (so there is at most one
attempt-cycle per distinct non-empty input text, duplicates collapsed); and
the concrete scenario: with "a" cached as "A", "b" uncached and the remote
returning `["B"]`, input `["a","a","b"]` yields `["A","A","B"]`, one remote
call covering only `["b"]`, and a cache containing "b" → "B". -/
theorem translate_batch_order_dedup (remote : Nat → List String → Option (List String))
    (cache : Cache) (texts : List String) :
    (translate_batch remote cache texts).results.length = texts.length ∧
    (∀ i, i < texts.length → texts.getD i "" = "" →
      (translate_batch remote cache texts).results.getD i "" = "") ∧
    (∀ c ∈ (translate_batch remote cache texts).calls, c = misses_of cache texts) ∧
    (misses_of cache texts).Nodup ∧
    (∀ t ∈ misses_of cache texts, t ≠ "" ∧ t ∈ texts ∧ cacheLookup cache t = none) ∧
    ((translate_batch (fun _ _ => some ["B"]) [("a", "A")] ["a", "a", "b"]).results =
        ["A", "A", "B"] ∧
      (translate_batch (fun _ _ => some ["B"]) [("a", "A")] ["a", "a", "b"]).calls = [["b"]] ∧
      cacheLookup (translate_batch (fun _ _ => some ["B"]) [("a", "A")] ["a", "a", "b"]).cache
        "b" = some "B") := by
  refine ⟨?_, ?_, translate_batch_calls remote cache texts, misses_of_nodup cache texts,
    fun t ht => misses_of_mem ht, by decide, by decide, by decide⟩
  · rw [translate_batch_results]
    exact List.length_map _ _
  · intro i hi hempty
    rw [translate_batch_results, getD_map_eq hi ""]
    rw [hempty]
    rfl

/-- Witness for C4, instantiating the theorem on the concrete scenario of the
claim. -/
theorem translate_batch_order_dedup_witness :
    (translate_batch (fun _ _ => some ["B"]) [("a", "A")] ["a", "a", "b"]).results.length = 3 ∧
    (translate_batch (fun _ _ => some ["B"]) [("a", "A")] ["a", "a", "b"]).results =
      ["A", "A", "B"] := by
  have h := translate_batch_order_dedup (fun _ _ => some ["B"]) [("a", "A")] ["a", "a", "b"]
  exact ⟨by simpa using h.1, h.2.2.2.2.2.1⟩

/-- C5: when the remote call errors on all 3 attempts, or succeeds with a
count different from the number of misses, `translate_batch` maps every
cache-miss text to itself and performs no cache write; concretely, input
`["x"]` uncached with the remote always erroring yields `["x"]`, an
unchanged (empty) cache, and a trace of 3 failed attempts. -/
theorem translate_batch_degrade (remote : Nat → List String → Option (List String))
    (cache : Cache) (texts : List String)
    (hfail : (call_with_retries remote (misses_of cache texts)).1 = none ∨
      ∀ r, (call_with_retries remote (misses_of cache texts)).1 = some r →
        r.length ≠ (misses_of cache texts).length) :
    (translate_batch remote cache texts).cache = cache ∧
    (∀ i, i < texts.length → cacheLookup cache (texts.getD i "") = none →
      (translate_batch remote cache texts).results.getD i "" = texts.getD i "") ∧
    ((translate_batch (fun _ _ => none) [] ["x"]).results = ["x"] ∧
      (translate_batch (fun _ _ => none) [] ["x"]).cache = [] ∧
      (translate_batch (fun _ _ => none) [] ["x"]).calls = [["x"], ["x"], ["x"]]) := by
  refine ⟨translate_batch_cache_fail hfail, ?_, by decide, by decide, by decide⟩
  intro i hi hmiss
  rw [translate_batch_results, getD_map_eq hi ""]
  by_cases hempty : texts.getD i "" = ""
  · rw [hempty]
    rfl
  · have hmem : texts.getD i "" ∈ misses_of cache texts :=
      misses_of_mem_of (getD_mem_of_lt hi "") hempty hmiss
    unfold map_back
    rw [if_neg hempty, final_cache_map_miss hmem hfail]
    rfl

/-- Witness for C5, instantiating the theorem on the concrete scenario of the
claim. -/
theorem translate_batch_degrade_witness :
    (translate_batch (fun _ _ => none) [] ["x"]).cache = [] ∧
    (translate_batch (fun _ _ => none) [] ["x"]).results.getD 0 "" = "x" := by
  have h := translate_batch_degrade (fun _ _ => none) [] ["x"] (Or.inl (by decide))
  exact ⟨h.1, h.2.1 0 (by decide) (by decide)⟩

/-! ## Dates

`chrono::NaiveDate` is modelled as the number of days since 1970-01-01 (an
`Int`), with the proleptic-Gregorian conversions between civil triples and
day numbers (the standard floor-division algorithms).  `%Y-%m-%d` parsing is
modelled as: an unsigned year of up to 6 digits, `-`, a 1-2 digit month,
`-`, a 1-2 digit day, the whole string consumed, the triple a real calendar
date, and the year within chrono's `NaiveDate` range (at most 262142).
1970-01-01 is a Thursday, so `Weekday::num_days_from_monday` of day `z` is
`(z + 3).emod 7`. -/

/-- Split off at most `maxN` leading decimal digits. -/
def splitDigits : List Char → Nat → List Char × List Char
  | l, 0 => ([], l)
  | [], _ + 1 => ([], [])
  | c :: t, n + 1 =>
    if c.isDigit then
      ((splitDigits t n).1.cons c, (splitDigits t n).2)
    else ([], c :: t)

/-- Decimal value of a digit list. -/
def digitsToNat (l : List Char) : Nat :=
  l.foldl (fun acc c => acc * 10 + (c.toNat - 48)) 0

/-- Gregorian leap year. -/
def isLeap (y : Int) : Bool := (y % 4 = 0 ∧ y % 100 ≠ 0) ∨ y % 400 = 0

/-- Days in a month of a given year. -/
def daysInMonth (y : Int) (m : Nat) : Nat :=
  if m = 2 then (if isLeap y then 29 else 28)
  else if m = 4 ∨ m = 6 ∨ m = 9 ∨ m = 11 then 30
  else 31

/-- Day number (days since 1970-01-01) of a civil date, by the standard
floor-division era algorithm. -/
def days_from_civil (y : Int) (m d : Nat) : Int :=
  let y2 : Int := if m ≤ 2 then y - 1 else y
  let era : Int := Int.fdiv y2 400
  let yoe : Nat := (y2 - era * 400).toNat
  let mp : Nat := if 2 < m then m - 3 else m + 9
  let doy : Nat := (153 * mp + 2) / 5 + d - 1
  let doe : Nat := yoe * 365 + yoe / 4 - yoe / 100 + doy
  era * 146097 + (doe : Int) - 719468

/-- Civil date of a day number (inverse of `days_from_civil`). -/
def civil_from_days (z : Int) : Int × Nat × Nat :=
  let z2 : Int := z + 719468
  let era : Int := Int.fdiv z2 146097
  let doe : Nat := (z2 - era * 146097).toNat
  let yoe : Nat := (doe - doe / 1460 + doe / 36524 - doe / 146096) / 365
  let y : Int := (yoe : Int) + era * 400
  let doy : Nat := doe - (365 * yoe + yoe / 4 - yoe / 100)
  let mp : Nat := (5 * doy + 2) / 153
  let d : Nat := doy - (153 * mp + 2) / 5 + 1
  let m : Nat := if mp < 10 then mp + 3 else mp - 9
  (if m ≤ 2 then y + 1 else y, m, d)

/-- `NaiveDate::parse_from_str(s, "%Y-%m-%d")`, as a civil triple. -/
def parse_ymd (s : String) : Option (Int × Nat × Nat) :=
  match splitDigits s.data 6 with
  | ([], _) => none
  | (ys, r1) =>
    match r1 with
    | '-' :: r2 =>
      match splitDigits r2 2 with
      | ([], _) => none
      | (ms, r3) =>
        match r3 with
        | '-' :: r4 =>
          match splitDigits r4 2 with
          | ([], _) => none
          | (ds, r5) =>
            if r5 = [] then
              if 1 ≤ digitsToNat ms ∧ digitsToNat ms ≤ 12 ∧ 1 ≤ digitsToNat ds ∧
                  digitsToNat ds ≤ daysInMonth (digitsToNat ys) (digitsToNat ms) ∧
                  digitsToNat ys ≤ 262142 then
                some ((digitsToNat ys : Int), digitsToNat ms, digitsToNat ds)
              else none
            else none
        | _ => none
    | _ => none

/-- `NaiveDate::parse_from_str(s, "%Y-%m-%d")`, as a day number. -/
def parse_date (s : String) : Option Int :=
  (parse_ymd s).map (fun t => days_from_civil t.1 t.2.1 t.2.2)

/-- `Weekday::num_days_from_monday` (Monday = 0 .. Sunday = 6). -/
def num_days_from_monday (z : Int) : Int := (z + 3) % 7

/-- Month abbreviation, as produced by chrono's `%b`. -/
def month_abbrev (m : Nat) : String :=
  if m = 1 then "Jan" else if m = 2 then "Feb" else if m = 3 then "Mar"
  else if m = 4 then "Apr" else if m = 5 then "May" else if m = 6 then "Jun"
  else if m = 7 then "Jul" else if m = 8 then "Aug" else if m = 9 then "Sep"
  else if m = 10 then "Oct" else if m = 11 then "Nov" else if m = 12 then "Dec"
  else ""

/-- Zero-padded two-digit number, as produced by chrono's `%d`. -/
def pad2 (n : Nat) : String :=
  if n < 10 then "0" ++ toString n else toString n

/-- chrono's `date.format("%b %d")`. -/
def format_b_d (z : Int) : String :=
  month_abbrev (civil_from_days z).2.1 ++ " " ++ pad2 (civil_from_days z).2.2

example : parse_date "1970-01-01" = some 0 := by decide
example : parse_date "2024-02-29" = some 19782 := by decide
example : parse_date "2023-02-29" = none := by decide
example : parse_date "2024-13-01" = none := by decide
example : parse_date "2024-01-abc" = none := by decide
example : parse_date "" = none := by decide
example : num_days_from_monday 0 = 3 := by decide
example : format_b_d 0 = "Jan 01" := by decide
example : civil_from_days 19782 = (2024, 2, 29) := by decide

/-! ## Calendar builder (`src/routes.rs`, `build_calendar`) -/

/-- `LogItem` (models.rs lines 26-34). -/
structure LogItem where
  id : Int
  course_id : Int
  kind : String
  title : String
  description : Option String
  link : Option String
  date : Option String
deriving DecidableEq, Repr, Inhabited

/-- `PublicLogItem` (models.rs lines 95-102). -/
structure PublicLogItem where
  id : Int
  kind : String
  title : String
  description : Option String
  date : Option String
  link : Option String
deriving DecidableEq, Repr, Inhabited

/-- `CalendarWeek` (models.rs lines 116-121); `week_number` is a `u32`. -/
structure CalendarWeek where
  week_number : Nat
  start_date : String
  end_date : String
  items_by_kind : List (String × List PublicLogItem)
deriving DecidableEq, Repr, Inhabited

/-- Substring containment on character lists (Rust `str::contains` with a
string pattern). -/
def containsSeq (pat : List Char) : List Char → Bool
  | [] => pat.isPrefixOf []
  | c :: t => pat.isPrefixOf (c :: t) || containsSeq pat t

/-- Rust `url.contains(pat)`. -/
def strContains (s pat : String) : Bool := containsSeq pat.data s.data

/-- `filter_public_link` (routes.rs lines 1317-1323): first-party links pass
verbatim; second-party links pass only for kind `Lecture` with the flag set;
everything else is suppressed. -/
def filter_public_link (link : Option String) (kind : String)
    (show_lecture_links : Bool) : Option String :=
  match link with
  | some url =>
    if strContains url "notes.lnjng.com" then some url
    else if strContains url "drive.google.com" ∧ kind = "Lecture" ∧ show_lecture_links then
      some url
    else none
  | none => none

/-- `ALL_KINDS` (routes.rs line 1325). -/
def ALL_KINDS : List String :=
  ["Lecture", "Discussion", "Lab", "Homework", "Quiz", "Midterm", "Other"]

/-- The `to_public` closure of `build_calendar` (routes.rs lines 1333-1355).
`translations` is the description-translation map snapshot passed in. -/
def to_public (translations : String → Option String) (translate_titles : Bool)
    (show_lecture_links : Bool) (item : LogItem) : PublicLogItem :=
  { id := item.id
    kind := item.kind
    title :=
      if translate_titles then translate_title_algorithmic item.kind item.title
      else item.title
    description :=
      match item.description with
      | none => none
      | some d =>
        if d = "" then none
        else if translate_titles then some ((translations d).getD d)
        else some d
    date := item.date
    link := filter_public_link item.link item.kind show_lecture_links }

/-- The partition predicate of `build_calendar` (routes.rs lines 1357-1359):
the date is present and non-empty. -/
def hasDate (i : LogItem) : Bool :=
  match i.date with
  | some d => d ≠ ""
  | none => false

/-- The date parse of the dated bucket (routes.rs lines 1368-1375). -/
def parsedOf (i : LogItem) : Option Int :=
  match i.date with
  | some ds => parse_date ds
  | none => none

/-- `dated_with_dates` (routes.rs lines 1368-1375): the dated items whose
date string parses, paired with the parsed date. -/
def parsed_items (log_items : List LogItem) : List (LogItem × Int) :=
  ((log_items.partition hasDate).1).filterMap
    (fun i => (parsedOf i).map (fun z => (i, z)))

/-- `dated_with_dates` after the stable ascending sort by parsed date
(routes.rs line 1381). -/
def sorted_items (log_items : List LogItem) : List (LogItem × Int) :=
  (parsed_items log_items).mergeSort (fun a b => decide (a.2 ≤ b.2))

/-- `epoch_monday` (routes.rs lines 1383-1384): the earliest parsed date
shifted back to its Monday. -/
def epoch_monday_of (log_items : List LogItem) : Int :=
  match (sorted_items log_items).head? with
  | some p0 => p0.2 - num_days_from_monday p0.2
  | none => 0

/-- 2^32, the modulus of the `as u32` cast. -/
def U32 : Nat := 4294967296

/-- The week index of a parsed date (routes.rs lines 1391-1392):
`((date - epoch_monday).num_days() / 7) as u32`, with Rust's truncating
`i64` division and wrapping cast. -/
def week_index_of (epoch_monday z : Int) : Nat :=
  ((Int.tdiv (z - epoch_monday) 7) % (U32 : Int)).toNat

/-- `max_week` (routes.rs line 1414): the largest observed week index. -/
def max_week_of (log_items : List LogItem) : Nat :=
  (sorted_items log_items).foldl
    (fun acc p => max acc (week_index_of (epoch_monday_of log_items) p.2)) 0

/-- Result triple of `build_calendar`. -/
structure CalOut where
  weeks : List CalendarWeek
  unscheduled : List PublicLogItem
  active_kinds : List String
deriving DecidableEq, Repr

/-- `active_kinds` (routes.rs lines 1406-1411): the fixed canonical order
filtered to the kinds occurring in `kind_counts`, which is populated from
the parsed dated items. -/
def active_kinds_of (log_items : List LogItem) : List String :=
  ALL_KINDS.filter (fun k => (sorted_items log_items).any (fun p => p.1.kind == k))

/-- The `(week, kind)` bucket of `weeks_map` (routes.rs lines 1387-1404),
as the in-order public projections of the parsed items falling in it. -/
def bucket_of (log_items : List LogItem) (show_lecture_links : Bool)
    (translations : String → Option String) (translate_titles : Bool)
    (w : Nat) (k : String) : List PublicLogItem :=
  ((sorted_items log_items).filter (fun p =>
    decide (week_index_of (epoch_monday_of log_items) p.2 = w ∧ p.1.kind = k))).map
    (fun p => to_public translations translate_titles show_lecture_links p.1)

/-- One emitted `CalendarWeek` (routes.rs lines 1417-1435).  The `+ 1` on a
`u32` week number is performed modulo 2^32. -/
def week_entry (log_items : List LogItem) (show_lecture_links : Bool)
    (translations : String → Option String) (translate_titles : Bool)
    (w : Nat) : CalendarWeek :=
  { week_number := (w + 1) % U32
    start_date := format_b_d (epoch_monday_of log_items + (w : Int) * 7)
    end_date := format_b_d (epoch_monday_of log_items + (w : Int) * 7 + 6)
    items_by_kind := (active_kinds_of log_items).map (fun k =>
      (k, bucket_of log_items show_lecture_links translations translate_titles w k)) }

/-- `build_calendar` (routes.rs lines 1327-1439). -/
def build_calendar (log_items : List LogItem) (show_lecture_links : Bool)
    (translations : String → Option String) (translate_titles : Bool) : CalOut :=
  if (log_items.partition hasDate).1 = [] then
    ⟨[], ((log_items.partition hasDate).2).map
      (to_public translations translate_titles show_lecture_links), []⟩
  else if parsed_items log_items = [] then
    ⟨[], ((log_items.partition hasDate).2).map
      (to_public translations translate_titles show_lecture_links), []⟩
  else
    ⟨(List.range (max_week_of log_items + 1)).map
        (week_entry log_items show_lecture_links translations translate_titles),
      ((log_items.partition hasDate).2).map
        (to_public translations translate_titles show_lecture_links),
      active_kinds_of log_items⟩

/-! ## Structural lemmas about `build_calendar` -/

section CalendarLemmas

lemma build_calendar_unscheduled_eq (log_items : List LogItem) (slf : Bool)
    (tr : String → Option String) (tt : Bool) :
    (build_calendar log_items slf tr tt).unscheduled =
      ((log_items.partition hasDate).2).map (to_public tr tt slf) := by
  unfold build_calendar
  split
  · rfl
  · split <;> rfl

lemma partition_fst_ne_of_parsed {log_items : List LogItem}
    (h : parsed_items log_items ≠ []) : (log_items.partition hasDate).1 ≠ [] := by
  intro hnil
  apply h
  unfold parsed_items
  rw [hnil]
  rfl

lemma build_calendar_weeks_eq {log_items : List LogItem} (slf : Bool)
    (tr : String → Option String) (tt : Bool) (h : parsed_items log_items ≠ []) :
    (build_calendar log_items slf tr tt).weeks =
      (List.range (max_week_of log_items + 1)).map (week_entry log_items slf tr tt) := by
  unfold build_calendar
  rw [if_neg (partition_fst_ne_of_parsed h), if_neg h]

lemma build_calendar_active_eq {log_items : List LogItem} (slf : Bool)
    (tr : String → Option String) (tt : Bool) (h : parsed_items log_items ≠ []) :
    (build_calendar log_items slf tr tt).active_kinds = active_kinds_of log_items := by
  unfold build_calendar
  rw [if_neg (partition_fst_ne_of_parsed h), if_neg h]

lemma build_calendar_weeks_nil {log_items : List LogItem} (slf : Bool)
    (tr : String → Option String) (tt : Bool) (h : parsed_items log_items = []) :
    (build_calendar log_items slf tr tt).weeks = [] := by
  by_cases hp : (log_items.partition hasDate).1 = []
  · unfold build_calendar
    rw [if_pos hp]
  · unfold build_calendar
    rw [if_neg hp, if_pos h]

lemma build_calendar_active_nil {log_items : List LogItem} (slf : Bool)
    (tr : String → Option String) (tt : Bool) (h : parsed_items log_items = []) :
    (build_calendar log_items slf tr tt).active_kinds = [] := by
  by_cases hp : (log_items.partition hasDate).1 = []
  · unfold build_calendar
    rw [if_pos hp]
  · unfold build_calendar
    rw [if_neg hp, if_pos h]

end CalendarLemmas

/-! ## Claim C9 -/

/-- C9: the link-visibility policy.  A link containing the first-party
domain is preserved verbatim regardless of kind and flag; a link not
containing it is preserved iff it contains the second-party domain, the kind
is exactly `Lecture`, and `showLectureLinks` is true; every other link —
including an absent one — is suppressed. -/
theorem filter_public_link_policy (link : Option String) (kind : String) (flag : Bool) :
    (∀ url, link = some url → strContains url "notes.lnjng.com" = true →
      filter_public_link link kind flag = some url) ∧
    (∀ url, link = some url → strContains url "notes.lnjng.com" = false →
      (filter_public_link link kind flag = some url ↔
        strContains url "drive.google.com" = true ∧ kind = "Lecture" ∧ flag = true)) ∧
    (∀ url, link = some url → strContains url "notes.lnjng.com" = false →
      ¬(strContains url "drive.google.com" = true ∧ kind = "Lecture" ∧ flag = true) →
      filter_public_link link kind flag = none) ∧
    (link = none → filter_public_link link kind flag = none) := by
  refine ⟨?_, ?_, ?_, ?_⟩
  · rintro url rfl h1
    simp [filter_public_link, h1]
  · rintro url rfl h1
    simp only [filter_public_link, h1, Bool.false_eq_true, if_false]
    split
    next hc => simp [hc.1, hc.2.1, hc.2.2]
    next hc =>
      constructor
      · intro h
        cases h
      · intro h
        exact absurd h hc
  · rintro url rfl h1 h2
    simp only [filter_public_link, h1, Bool.false_eq_true, if_false]
    split
    next hc => exact absurd hc h2
    next => rfl
  · rintro rfl
    rfl

/-- Witness for C9: a concrete first-party link with a non-Lecture kind and
the flag off. -/
theorem filter_public_link_policy_witness :
    filter_public_link (some "https://notes.lnjng.com/a") "Quiz" false =
      some "https://notes.lnjng.com/a" :=
  (filter_public_link_policy (some "https://notes.lnjng.com/a") "Quiz" false).1
    "https://notes.lnjng.com/a" rfl (by decide)

/-! ## Membership lemmas for the calendar pipeline -/

section CalendarMembership

lemma to_public_kind (tr : String → Option String) (tt slf : Bool) (i : LogItem) :
    (to_public tr tt slf i).kind = i.kind := rfl

lemma to_public_date (tr : String → Option String) (tt slf : Bool) (i : LogItem) :
    (to_public tr tt slf i).date = i.date := rfl

lemma mem_parsed {items : List LogItem} {p : LogItem × Int} (h : p ∈ parsed_items items) :
    p.1 ∈ (items.partition hasDate).1 ∧ parsedOf p.1 = some p.2 := by
  unfold parsed_items at h
  rcases List.mem_filterMap.mp h with ⟨a, ha, hfa⟩
  rcases Option.map_eq_some'.mp hfa with ⟨z, hz, heq⟩
  cases heq
  exact ⟨ha, hz⟩

lemma mem_sorted_iff {items : List LogItem} {p : LogItem × Int} :
    p ∈ sorted_items items ↔ p ∈ parsed_items items := by
  unfold sorted_items
  exact List.mem_mergeSort

lemma any_sorted_eq (items : List LogItem) (k : String) :
    (sorted_items items).any (fun p => p.1.kind == k) =
      (parsed_items items).any (fun p => p.1.kind == k) := by
  rw [Bool.eq_iff_iff]
  simp only [List.any_eq_true]
  constructor
  · rintro ⟨x, hx, hk⟩
    exact ⟨x, mem_sorted_iff.mp hx, hk⟩
  · rintro ⟨x, hx, hk⟩
    exact ⟨x, mem_sorted_iff.mpr hx, hk⟩

end CalendarMembership

/-! ## Claims C7 and C8 -/

/-- C7: the active kinds are exactly the fixed canonical order
`[Lecture, Discussion, Lab, Homework, Quiz, Midterm, Other]` filtered to the
kinds occurring among the parseable dated items; `Final` and `Project` never
appear in it, and no public item of those kinds ever appears in any week's
`items_by_kind`. -/
theorem build_calendar_active_kinds_canonical (items : List LogItem) (slf : Bool)
    (tr : String → Option String) (tt : Bool) :
    (build_calendar items slf tr tt).active_kinds =
      ALL_KINDS.filter (fun k => (parsed_items items).any (fun p => p.1.kind == k)) ∧
    "Final" ∉ (build_calendar items slf tr tt).active_kinds ∧
    "Project" ∉ (build_calendar items slf tr tt).active_kinds ∧
    (∀ wk ∈ (build_calendar items slf tr tt).weeks, ∀ kl ∈ wk.items_by_kind,
      ∀ p ∈ kl.2, p.kind ≠ "Final" ∧ p.kind ≠ "Project") := by
  have hact : (build_calendar items slf tr tt).active_kinds =
      ALL_KINDS.filter (fun k => (parsed_items items).any (fun p => p.1.kind == k)) := by
    by_cases h : parsed_items items = []
    · rw [build_calendar_active_nil _ _ _ h, h]
      simp
    · rw [build_calendar_active_eq _ _ _ h]
      unfold active_kinds_of
      exact List.filter_congr (fun k _ => any_sorted_eq items k)
  refine ⟨hact, ?_, ?_, ?_⟩
  · rw [hact]
    intro hmem
    exact absurd (List.mem_of_mem_filter hmem) (by decide)
  · rw [hact]
    intro hmem
    exact absurd (List.mem_of_mem_filter hmem) (by decide)
  · intro wk hwk kl hkl p hp
    by_cases h : parsed_items items = []
    · rw [build_calendar_weeks_nil _ _ _ h] at hwk
      cases hwk
    · rw [build_calendar_weeks_eq _ _ _ h] at hwk
      rcases List.mem_map.mp hwk with ⟨w, hw, rfl⟩
      rcases List.mem_map.mp hkl with ⟨k, hk, rfl⟩
      rcases List.mem_map.mp hp with ⟨q, hq, rfl⟩
      have hqk : q.1.kind = k := by
        have := (List.mem_filter.mp hq).2
        exact (of_decide_eq_true this).2
      have hkA : k ∈ ALL_KINDS := List.mem_of_mem_filter hk
      rw [to_public_kind, hqk]
      have : k = "Lecture" ∨ k = "Discussion" ∨ k = "Lab" ∨ k = "Homework" ∨
          k = "Quiz" ∨ k = "Midterm" ∨ k = "Other" := by
        simpa [ALL_KINDS] using hkA
      rcases this with rfl | rfl | rfl | rfl | rfl | rfl | rfl <;>
        exact ⟨by decide, by decide⟩

/-- Witness for C7: a lone dated `Final` item never surfaces an active kind. -/
theorem build_calendar_active_kinds_canonical_witness :
    "Final" ∉ (build_calendar [⟨1, 1, "Final", "期末考试", none, none,
      some "2024-01-10"⟩] true (fun _ => none) true).active_kinds :=
  (build_calendar_active_kinds_canonical
    [⟨1, 1, "Final", "期末考试", none, none, some "2024-01-10"⟩] true
    (fun _ => none) true).2.1

/-- C8: an item whose date string is present and non-empty but fails to
parse is dropped entirely — it appears neither in `unscheduled` nor in any
week's `items_by_kind` — while an item with an absent or empty date string
always appears in `unscheduled`. -/
theorem build_calendar_malformed_dates_dropped (items : List LogItem) (slf : Bool)
    (tr : String → Option String) (tt : Bool) :
    (∀ i ∈ items, (i.date = none ∨ i.date = some "") →
      to_public tr tt slf i ∈ (build_calendar items slf tr tt).unscheduled) ∧
    (∀ i ∈ items, ∀ ds, i.date = some ds → ds ≠ "" → parse_date ds = none →
      to_public tr tt slf i ∉ (build_calendar items slf tr tt).unscheduled ∧
      ∀ wk ∈ (build_calendar items slf tr tt).weeks, ∀ kl ∈ wk.items_by_kind,
        to_public tr tt slf i ∉ kl.2) := by
  constructor
  · intro i hi hd
    rw [build_calendar_unscheduled_eq]
    apply List.mem_map_of_mem
    rw [List.partition_eq_filter_filter]
    apply List.mem_filter.mpr
    refine ⟨hi, ?_⟩
    rcases hd with h | h <;> simp [Function.comp, hasDate, h]
  · intro i hi ds hds hne hparse
    constructor
    · rw [build_calendar_unscheduled_eq]
      intro hmem
      rcases List.mem_map.mp hmem with ⟨j, hj, hjeq⟩
      have hdate : j.date = i.date := congrArg PublicLogItem.date hjeq
      have hjd : j.date = some ds := hdate.trans hds
      rw [List.partition_eq_filter_filter] at hj
      have hj2 := (List.mem_filter.mp hj).2
      have hjf : hasDate j = false := by simpa using hj2
      unfold hasDate at hjf
      rw [hjd] at hjf
      simp at hjf
      exact hne hjf
    · intro wk hwk kl hkl hmem
      by_cases h : parsed_items items = []
      · rw [build_calendar_weeks_nil _ _ _ h] at hwk
        cases hwk
      · rw [build_calendar_weeks_eq _ _ _ h] at hwk
        rcases List.mem_map.mp hwk with ⟨w, hw, rfl⟩
        rcases List.mem_map.mp hkl with ⟨k, hk, rfl⟩
        rcases List.mem_map.mp hmem with ⟨q, hq, hqeq⟩
        have hq1 : q ∈ sorted_items items := (List.mem_filter.mp hq).1
        rcases mem_parsed (mem_sorted_iff.mp hq1) with ⟨-, hqparse⟩
        have hdate : q.1.date = i.date := congrArg PublicLogItem.date hqeq
        have hqd : q.1.date = some ds := hdate.trans hds
        have : parsedOf q.1 = none := by
          unfold parsedOf
          rw [hqd]
          exact hparse
        rw [this] at hqparse
        cases hqparse

/-- Witness for C8: an undated item lands in `unscheduled`, and an item with
the malformed date `2024-99-10` is dropped from `unscheduled`. -/
theorem build_calendar_malformed_dates_dropped_witness :
    to_public (fun _ => none) true true ⟨3, 1, "Quiz", "t", none, none, none⟩ ∈
      (build_calendar [⟨3, 1, "Quiz", "t", none, none, none⟩,
        ⟨5, 1, "Lecture", "u", none, none, some "2024-99-10"⟩] true
        (fun _ => none) true).unscheduled ∧
    to_public (fun _ => none) true true ⟨5, 1, "Lecture", "u", none, none,
        some "2024-99-10"⟩ ∉
      (build_calendar [⟨3, 1, "Quiz", "t", none, none, none⟩,
        ⟨5, 1, "Lecture", "u", none, none, some "2024-99-10"⟩] true
        (fun _ => none) true).unscheduled :=
  ⟨(build_calendar_malformed_dates_dropped [⟨3, 1, "Quiz", "t", none, none, none⟩,
      ⟨5, 1, "Lecture", "u", none, none, some "2024-99-10"⟩] true (fun _ => none) true).1
    ⟨3, 1, "Quiz", "t", none, none, none⟩ (by decide) (Or.inl rfl),
   ((build_calendar_malformed_dates_dropped [⟨3, 1, "Quiz", "t", none, none, none⟩,
      ⟨5, 1, "Lecture", "u", none, none, some "2024-99-10"⟩] true (fun _ => none) true).2
    ⟨5, 1, "Lecture", "u", none, none, some "2024-99-10"⟩ (by decide) "2024-99-10" rfl
    (by decide) (by decide)).1⟩

/-! ## Bounds on parsed dates and week indices -/

section DateBounds

lemma daysInMonth_le (y : Int) (m : Nat) : daysInMonth y m ≤ 31 := by
  unfold daysInMonth
  split_ifs <;> omega

lemma parse_ymd_bounds {s : String} {y : Int} {m d : Nat}
    (h : parse_ymd s = some (y, m, d)) :
    0 ≤ y ∧ y ≤ 262142 ∧ 1 ≤ m ∧ m ≤ 12 ∧ 1 ≤ d ∧ d ≤ 31 := by
  have hdm : ∀ (yy : Int) (mm : Nat), daysInMonth yy mm ≤ 31 := daysInMonth_le
  unfold parse_ymd at h
  repeat' split at h
  all_goals try cases h
  rename_i hcond
  rcases hcond with ⟨h1, h2, h3, h4, h5⟩
  exact ⟨Int.natCast_nonneg _, by exact_mod_cast h5, h1, h2, h3, le_trans h4 (hdm _ _)⟩

lemma days_from_civil_bounds {y : Int} {m d : Nat} (hy0 : 0 ≤ y) (hy : y ≤ 262142)
    (hm1 : 1 ≤ m) (hm : m ≤ 12) (hd1 : 1 ≤ d) (hd : d ≤ 31) :
    -865565 ≤ days_from_civil y m d ∧ days_from_civil y m d ≤ 95120168 := by
  simp only [days_from_civil]
  set y2 : Int := if m ≤ 2 then y - 1 else y with hy2def
  have hy2a : -1 ≤ y2 := by rw [hy2def]; split <;> omega
  have hy2b : y2 ≤ 262142 := by rw [hy2def]; split <;> omega
  rw [Int.fdiv_eq_ediv _ (by norm_num)]
  set era : Int := y2 / 400 with hera
  have hera1 : -1 ≤ era := by
    have h1 : (-1 : Int) / 400 ≤ y2 / 400 := Int.ediv_le_ediv (by norm_num) hy2a
    have h0 : (-1 : Int) / 400 = -1 := by decide
    omega
  have hera2 : era ≤ 655 := by
    have h1 : y2 / 400 ≤ (262142 : Int) / 400 := Int.ediv_le_ediv (by norm_num) hy2b
    have h0 : (262142 : Int) / 400 = 655 := by decide
    omega
  have hmod : y2 - era * 400 = y2 % 400 := by
    rw [hera, Int.emod_def]
    ring
  have hmod0 : 0 ≤ y2 % 400 := Int.emod_nonneg _ (by norm_num)
  have hmod1 : y2 % 400 < 400 := Int.emod_lt_of_pos _ (by norm_num)
  set yoe : Nat := (y2 - era * 400).toNat with hyoe
  have hyoeb : yoe ≤ 399 := by rw [hyoe]; omega
  set mp : Nat := if 2 < m then m - 3 else m + 9 with hmp
  have hmpb : mp ≤ 11 := by rw [hmp]; split <;> omega
  have hdoy5 : (153 * mp + 2) / 5 ≤ 337 := by
    have h1 : 153 * mp + 2 ≤ 1685 := by omega
    have h2 : (153 * mp + 2) / 5 ≤ 1685 / 5 := Nat.div_le_div_right h1
    omega
  have hyoe4 : yoe / 4 ≤ 99 := by
    have h2 : yoe / 4 ≤ 399 / 4 := Nat.div_le_div_right hyoeb
    omega
  constructor <;> omega

lemma parse_date_bounds {s : String} {z : Int} (h : parse_date s = some z) :
    -865565 ≤ z ∧ z ≤ 95120168 := by
  unfold parse_date at h
  rcases Option.map_eq_some'.mp h with ⟨⟨y, m, d⟩, hp, rfl⟩
  rcases parse_ymd_bounds hp with ⟨h1, h2, h3, h4, h5, h6⟩
  exact days_from_civil_bounds h1 h2 h3 h4 h5 h6

lemma parsed_item_bounds {items : List LogItem} {p : LogItem × Int}
    (h : p ∈ parsed_items items) : -865565 ≤ p.2 ∧ p.2 ≤ 95120168 := by
  rcases mem_parsed h with ⟨-, hp⟩
  unfold parsedOf at hp
  cases hd : p.1.date with
  | some ds =>
    rw [hd] at hp
    exact parse_date_bounds hp
  | none =>
    rw [hd] at hp
    cases hp

end DateBounds

/-! ## The sort, the epoch, and the fold over week indices -/

section SortEpoch

lemma sorted_items_sorted (items : List LogItem) :
    List.Pairwise (fun a b : LogItem × Int => a.2 ≤ b.2) (sorted_items items) := by
  have htrans : ∀ (a b c : LogItem × Int), decide (a.2 ≤ b.2) = true →
      decide (b.2 ≤ c.2) = true → decide (a.2 ≤ c.2) = true := by
    intro a b c hab hbc
    simp only [decide_eq_true_eq] at *
    omega
  have htotal : ∀ (a b : LogItem × Int),
      (decide (a.2 ≤ b.2) || decide (b.2 ≤ a.2)) = true := by
    intro a b
    simp only [Bool.or_eq_true, decide_eq_true_eq]
    omega
  have h := List.sorted_mergeSort htrans htotal (parsed_items items)
  refine h.imp ?_
  intro a b hab
  simpa using hab

lemma sorted_ne_nil {items : List LogItem} (h : parsed_items items ≠ []) :
    sorted_items items ≠ [] := by
  intro hl
  apply h
  have hperm := List.mergeSort_perm (parsed_items items)
    (fun a b : LogItem × Int => decide (a.2 ≤ b.2))
  rw [show (parsed_items items).mergeSort (fun a b : LogItem × Int => decide (a.2 ≤ b.2)) =
    sorted_items items from rfl, hl] at hperm
  exact hperm.symm.eq_nil

lemma head_min {items : List LogItem} {p0 : LogItem × Int}
    (h : (sorted_items items).head? = some p0) :
    ∀ p ∈ sorted_items items, p0.2 ≤ p.2 := by
  intro p hp
  have hs := sorted_items_sorted items
  cases hl : sorted_items items with
  | nil =>
    rw [hl] at hp
    cases hp
  | cons q t =>
    rw [hl] at h hp hs
    have hq : q = p0 := by simpa using h
    subst hq
    rcases List.mem_cons.mp hp with rfl | hpt
    · omega
    · exact List.rel_of_pairwise_cons hs hpt

lemma epoch_monday_le_of_mem {items : List LogItem} {p : LogItem × Int}
    (hp : p ∈ parsed_items items) :
    epoch_monday_of items ≤ p.2 ∧ p.2 - epoch_monday_of items ≤ 95985739 := by
  have hne : sorted_items items ≠ [] := sorted_ne_nil (by
    intro h
    rw [h] at hp
    cases hp)
  obtain ⟨p0, t0, hl⟩ : ∃ p0 t0, sorted_items items = p0 :: t0 := by
    cases hl : sorted_items items with
    | nil => exact absurd hl hne
    | cons q t => exact ⟨q, t, rfl⟩
  have hp0 : (sorted_items items).head? = some p0 := by rw [hl]; rfl
  have hmin := head_min hp0 p (mem_sorted_iff.mpr hp)
  have hp0mem : p0 ∈ sorted_items items := by
    rw [hl]
    exact List.mem_cons_self _ _
  rcases parsed_item_bounds (mem_sorted_iff.mp hp0mem) with ⟨hlo, -⟩
  rcases parsed_item_bounds hp with ⟨-, hhi⟩
  have hem : epoch_monday_of items = p0.2 - num_days_from_monday p0.2 := by
    unfold epoch_monday_of
    rw [hp0]
  unfold num_days_from_monday at hem
  have hw0 : 0 ≤ (p0.2 + 3).emod 7 := Int.emod_nonneg _ (by norm_num)
  have hw6 : (p0.2 + 3).emod 7 < 7 := Int.emod_lt_of_pos _ (by norm_num)
  constructor <;> omega

lemma week_index_spec {em z : Int} (h0 : em ≤ z) (h1 : z - em ≤ 95985739) :
    (week_index_of em z : Int) = Int.tdiv (z - em) 7 ∧
    week_index_of em z ≤ 13712248 := by
  unfold week_index_of
  have ha : 0 ≤ z - em := by omega
  have htd : Int.tdiv (z - em) 7 = (z - em) / 7 := Int.tdiv_eq_ediv ha (by norm_num)
  have h2 : 0 ≤ (z - em) / 7 := Int.ediv_nonneg ha (by norm_num)
  have h3 : (z - em) / 7 ≤ 13712248 := by
    have hm := Int.ediv_le_ediv (c := 7) (by norm_num) h1
    have he : (95985739 : Int) / 7 = 13712248 := by decide
    omega
  have hU : (U32 : Int) = 4294967296 := by norm_num [U32]
  rw [htd, Int.emod_eq_of_lt h2 (by omega)]
  constructor
  · exact Int.toNat_of_nonneg h2
  · omega

end SortEpoch

section FoldMax

lemma foldl_max_le {α : Type} (f : α → Nat) (B : Nat) :
    ∀ (l : List α) (a : Nat), a ≤ B → (∀ x ∈ l, f x ≤ B) →
      l.foldl (fun acc x => max acc (f x)) a ≤ B := by
  intro l
  induction l with
  | nil =>
    intro a ha _
    exact ha
  | cons hd tl ih =>
    intro a ha hf
    exact ih _ (Nat.max_le.mpr ⟨ha, hf hd (List.mem_cons_self _ _)⟩)
      (fun x hx => hf x (List.mem_cons_of_mem _ hx))

lemma le_foldl_max_init {α : Type} (f : α → Nat) :
    ∀ (l : List α) (a : Nat), a ≤ l.foldl (fun acc x => max acc (f x)) a := by
  intro l
  induction l with
  | nil =>
    intro a
    exact le_refl a
  | cons hd tl ih =>
    intro a
    exact le_trans (Nat.le_max_left a (f hd)) (ih (max a (f hd)))

lemma le_foldl_max_of_mem {α : Type} (f : α → Nat) :
    ∀ (l : List α) (a : Nat) (x : α), x ∈ l →
      f x ≤ l.foldl (fun acc x => max acc (f x)) a := by
  intro l
  induction l with
  | nil =>
    intro a x hx
    cases hx
  | cons hd tl ih =>
    intro a x hx
    rcases List.mem_cons.mp hx with rfl | hxt
    · exact le_trans (Nat.le_max_right a (f x)) (le_foldl_max_init f tl _)
    · exact ih _ x hxt

lemma foldl_max_exists {α : Type} (f : α → Nat) :
    ∀ (l : List α) (a : Nat),
      l.foldl (fun acc x => max acc (f x)) a = a ∨
      ∃ x ∈ l, l.foldl (fun acc x => max acc (f x)) a = f x := by
  intro l
  induction l with
  | nil =>
    intro a
    exact Or.inl rfl
  | cons hd tl ih =>
    intro a
    have hfold : (hd :: tl).foldl (fun acc x => max acc (f x)) a =
        tl.foldl (fun acc x => max acc (f x)) (max a (f hd)) := rfl
    rcases ih (max a (f hd)) with h | ⟨x, hx, hfx⟩
    · by_cases hc : f hd ≤ a
      · left
        rw [hfold, h, Nat.max_eq_left hc]
      · right
        exact ⟨hd, List.mem_cons_self _ _, by rw [hfold, h, Nat.max_eq_right (by omega)]⟩
    · right
      exact ⟨x, List.mem_cons_of_mem _ hx, by rw [hfold, hfx]⟩

lemma week_index_le_max {items : List LogItem} {p : LogItem × Int}
    (hp : p ∈ parsed_items items) :
    week_index_of (epoch_monday_of items) p.2 ≤ max_week_of items :=
  le_foldl_max_of_mem
    (fun q : LogItem × Int => week_index_of (epoch_monday_of items) q.2)
    (sorted_items items) 0 p (mem_sorted_iff.mpr hp)

lemma max_week_exists {items : List LogItem} (hne : parsed_items items ≠ []) :
    ∃ p ∈ parsed_items items,
      week_index_of (epoch_monday_of items) p.2 = max_week_of items := by
  rcases foldl_max_exists (fun q : LogItem × Int =>
      week_index_of (epoch_monday_of items) q.2) (sorted_items items) 0 with h | ⟨x, hx, hfx⟩
  · obtain ⟨q, t, hl⟩ : ∃ q t, sorted_items items = q :: t := by
      cases hl : sorted_items items with
      | nil => exact absurd hl (sorted_ne_nil hne)
      | cons q t => exact ⟨q, t, rfl⟩
    have hq : q ∈ sorted_items items := by
      rw [hl]
      exact List.mem_cons_self _ _
    have h0 : max_week_of items = 0 := h
    have hle : week_index_of (epoch_monday_of items) q.2 ≤ max_week_of items :=
      le_foldl_max_of_mem
        (fun r : LogItem × Int => week_index_of (epoch_monday_of items) r.2)
        (sorted_items items) 0 q hq
    exact ⟨q, mem_sorted_iff.mp hq, by omega⟩
  · have h0 : max_week_of items = week_index_of (epoch_monday_of items) x.2 := hfx
    exact ⟨x, mem_sorted_iff.mp hx, h0.symm⟩

lemma max_week_le {items : List LogItem}
    (hbnd : ∀ p ∈ parsed_items items,
      week_index_of (epoch_monday_of items) p.2 ≤ 13712248) :
    max_week_of items ≤ 13712248 :=
  foldl_max_le
    (fun q : LogItem × Int => week_index_of (epoch_monday_of items) q.2) 13712248
    (sorted_items items) 0 (by omega)
    (fun x hx => hbnd x (mem_sorted_iff.mp hx))

end FoldMax

section RangeHelpers

lemma getD_range_map {β : Type} {f : Nat → β} {n j : Nat} (h : j < n) (d : β) :
    ((List.range n).map f).getD j d = f j := by
  rw [List.getD_eq_getElem?_getD, List.getElem?_map, List.getElem?_range h]
  rfl

lemma countP_beq_range {w n : Nat} (h : w < n) :
    (List.range n).countP (fun j => j == w) = 1 := by
  have h1 : (List.range n).count w = 1 :=
    List.count_eq_one_of_mem (List.nodup_range n) (List.mem_range.mpr h)
  simpa [List.count] using h1

end RangeHelpers

/-! ## Claims C6 and C10 -/

/-- C6: with at least one parseable dated item, `build_calendar` emits
exactly one `CalendarWeek` per zero-based week index from 0 through the
maximum observed index inclusive, numbered contiguously 1-based
(`week_number = index + 1`); a week index hit by no parsed item still
appears, with an empty item list for every active kind.  The last two
conjuncts identify `max_week_of` as the maximum observed week index. -/
theorem build_calendar_weeks_contiguous (items : List LogItem) (slf : Bool)
    (tr : String → Option String) (tt : Bool) (hne : parsed_items items ≠ []) :
    (build_calendar items slf tr tt).weeks.length = max_week_of items + 1 ∧
    (∀ j, j < (build_calendar items slf tr tt).weeks.length →
      ((build_calendar items slf tr tt).weeks.getD j default).week_number = j + 1) ∧
    (∀ j, j < (build_calendar items slf tr tt).weeks.length →
      (∀ p ∈ parsed_items items, week_index_of (epoch_monday_of items) p.2 ≠ j) →
      ∀ kl ∈ ((build_calendar items slf tr tt).weeks.getD j default).items_by_kind,
        kl.2 = []) ∧
    (∀ p ∈ parsed_items items,
      week_index_of (epoch_monday_of items) p.2 ≤ max_week_of items) ∧
    (∃ p ∈ parsed_items items,
      week_index_of (epoch_monday_of items) p.2 = max_week_of items) := by
  have hb : ∀ p ∈ parsed_items items,
      week_index_of (epoch_monday_of items) p.2 ≤ 13712248 := by
    intro p hp
    rcases epoch_monday_le_of_mem hp with ⟨h1, h2⟩
    exact (week_index_spec h1 h2).2
  have hmw := max_week_le hb
  have hweeks := build_calendar_weeks_eq slf tr tt hne
  have hlen : (build_calendar items slf tr tt).weeks.length = max_week_of items + 1 := by
    rw [hweeks, List.length_map, List.length_range]
  refine ⟨hlen, ?_, ?_, fun p hp => week_index_le_max hp, max_week_exists hne⟩
  · intro j hj
    rw [hlen] at hj
    rw [hweeks, getD_range_map (by omega)]
    show (j + 1) % U32 = j + 1
    apply Nat.mod_eq_of_lt
    have hU : U32 = 4294967296 := rfl
    omega
  · intro j hj hnone kl hkl
    rw [hlen] at hj
    rw [hweeks, getD_range_map (by omega)] at hkl
    simp only [week_entry] at hkl
    rcases List.mem_map.mp hkl with ⟨k, hk, rfl⟩
    show bucket_of items slf tr tt j k = []
    unfold bucket_of
    have hfil : (sorted_items items).filter (fun p =>
        decide (week_index_of (epoch_monday_of items) p.2 = j ∧ p.1.kind = k)) = [] := by
      apply List.filter_eq_nil_iff.mpr
      intro p hp hdec
      rcases of_decide_eq_true hdec with ⟨hw, -⟩
      exact hnone p (mem_sorted_iff.mp hp) hw
    rw [hfil]
    rfl

/-- Witness for C6, on dated items spanning weeks 0 and 3 only. -/
theorem build_calendar_weeks_contiguous_witness :
    (build_calendar [⟨1, 1, "Lecture", "第一讲", none, none, some "2024-01-02"⟩,
      ⟨2, 1, "Homework", "作业一", none, none, some "2024-01-24"⟩] true
      (fun _ => none) true).weeks.length =
      max_week_of [⟨1, 1, "Lecture", "第一讲", none, none, some "2024-01-02"⟩,
        ⟨2, 1, "Homework", "作业一", none, none, some "2024-01-24"⟩] + 1 ∧
    ((build_calendar [⟨1, 1, "Lecture", "第一讲", none, none, some "2024-01-02"⟩,
      ⟨2, 1, "Homework", "作业一", none, none, some "2024-01-24"⟩] true
      (fun _ => none) true).weeks.getD 0 default).week_number = 1 := by
  have h := build_calendar_weeks_contiguous
    [⟨1, 1, "Lecture", "第一讲", none, none, some "2024-01-02"⟩,
      ⟨2, 1, "Homework", "作业一", none, none, some "2024-01-24"⟩] true
    (fun _ => none) true (by decide)
  refine ⟨h.1, h.2.1 0 ?_⟩
  rw [h.1]
  omega

/-- C10: for every input list, `epoch_monday` is at most every successfully
parsed item date, so every week index `(date - epochMonday).num_days() / 7`
is non-negative and the `as u32` cast is wrap-free (the modelled cast equals
the plain truncating quotient); and every parseable dated item whose kind is
one of the seven canonical column kinds appears in exactly one week's
`items_by_kind` lists. -/
theorem build_calendar_no_wrap_no_loss (items : List LogItem) (slf : Bool)
    (tr : String → Option String) (tt : Bool) :
    (∀ p ∈ parsed_items items,
      epoch_monday_of items ≤ p.2 ∧
      0 ≤ Int.tdiv (p.2 - epoch_monday_of items) 7 ∧
      (week_index_of (epoch_monday_of items) p.2 : Int) =
        Int.tdiv (p.2 - epoch_monday_of items) 7) ∧
    (∀ p ∈ parsed_items items, p.1.kind ∈ ALL_KINDS →
      ((build_calendar items slf tr tt).weeks.countP (fun wk =>
        wk.items_by_kind.any (fun kl =>
          decide (to_public tr tt slf p.1 ∈ kl.2)))) = 1) := by
  constructor
  · intro p hp
    rcases epoch_monday_le_of_mem hp with ⟨h1, h2⟩
    exact ⟨h1, Int.tdiv_nonneg (by omega) (by norm_num), (week_index_spec h1 h2).1⟩
  · intro p hp hkA
    have hne : parsed_items items ≠ [] := by
      intro h
      rw [h] at hp
      cases hp
    rw [build_calendar_weeks_eq slf tr tt hne, List.countP_map]
    have hpt : ∀ j ∈ List.range (max_week_of items + 1),
        (((fun wk : CalendarWeek => wk.items_by_kind.any (fun kl =>
          decide (to_public tr tt slf p.1 ∈ kl.2))) ∘
            week_entry items slf tr tt) j = true ↔
          (j == week_index_of (epoch_monday_of items) p.2) = true) := by
      intro j hj
      simp only [Function.comp_apply, week_entry]
      constructor
      · intro hany
        rcases List.any_eq_true.mp hany with ⟨kl, hkl, hdec⟩
        rcases List.mem_map.mp hkl with ⟨k, hk, rfl⟩
        have hmem := of_decide_eq_true hdec
        unfold bucket_of at hmem
        rcases List.mem_map.mp hmem with ⟨q, hq, hqeq⟩
        rcases List.mem_filter.mp hq with ⟨hqs, hqpred⟩
        rcases of_decide_eq_true hqpred with ⟨hqw, hqk⟩
        have hdate : q.1.date = p.1.date := congrArg PublicLogItem.date hqeq
        rcases mem_parsed (mem_sorted_iff.mp hqs) with ⟨-, hqparse⟩
        rcases mem_parsed hp with ⟨-, hpparse⟩
        have hsame : parsedOf q.1 = parsedOf p.1 := by
          unfold parsedOf
          rw [hdate]
        rw [hsame, hpparse] at hqparse
        have hz : p.2 = q.2 := by
          injection hqparse with hz
        rw [beq_iff_eq, hz, ← hqw]
      · intro hjw
        have hj2 : j = week_index_of (epoch_monday_of items) p.2 := by simpa using hjw
        subst hj2
        apply List.any_eq_true.mpr
        refine ⟨(p.1.kind, bucket_of items slf tr tt
          (week_index_of (epoch_monday_of items) p.2) p.1.kind), ?_, ?_⟩
        · apply List.mem_map_of_mem
          unfold active_kinds_of
          apply List.mem_filter.mpr
          refine ⟨hkA, List.any_eq_true.mpr ⟨p, mem_sorted_iff.mpr hp, ?_⟩⟩
          simp
        · apply decide_eq_true
          unfold bucket_of
          apply List.mem_map_of_mem
          apply List.mem_filter.mpr
          exact ⟨mem_sorted_iff.mpr hp, decide_eq_true ⟨rfl, rfl⟩⟩
    rw [List.countP_congr hpt]
    exact countP_beq_range (by
      have := week_index_le_max hp
      omega)

/-- Witness for C10 at a concrete dated Lecture item. -/
theorem build_calendar_no_wrap_no_loss_witness :
    epoch_monday_of [⟨1, 1, "Lecture", "t", none, none, some "2024-01-02"⟩] ≤ 19724 ∧
    ((build_calendar [⟨1, 1, "Lecture", "t", none, none, some "2024-01-02"⟩] true
      (fun _ => none) true).weeks.countP (fun wk =>
        wk.items_by_kind.any (fun kl => decide (to_public (fun _ => none) true true
          ⟨1, 1, "Lecture", "t", none, none, some "2024-01-02"⟩ ∈ kl.2)))) = 1 := by
  have h := build_calendar_no_wrap_no_loss
    [⟨1, 1, "Lecture", "t", none, none, some "2024-01-02"⟩] true (fun _ => none) true
  exact ⟨(h.1 (⟨1, 1, "Lecture", "t", none, none, some "2024-01-02"⟩, 19724) (by decide)).1,
    h.2 (⟨1, 1, "Lecture", "t", none, none, some "2024-01-02"⟩, 19724) (by decide) (by decide)⟩

end Zhixi
